import Mathlib

/-!
Verification of `knn_bandits/bandits.py` (class `ContextualBandit`,
called `LinearBanditPolicy` in the design document).

Shallow embedding conventions:
* Python floats are modelled as exact rationals `ℚ`; the claims under
  study are algebraic/structural and do not depend on IEEE rounding.
* Python exceptions are modelled by `Except Err`; the constructors of
  `Err` name both the runtime errors Python can actually raise here
  (`IndexError`, `ValueError`, `ZeroDivisionError`) and the error
  vocabulary of the design document (`InvalidConfiguration`,
  `DimensionMismatch`, `EmptyDataset`), so that claims about the latter
  can be stated and settled.
* `random.random()` draws are modelled by an injected stream
  `rand : ℕ → ℚ`; arm `a` consumes entries `a*num_features + i`.
* Mutation of `self` is modelled by explicit state passing: methods that
  assign to fields return a new `ContextualBandit`; `offline_policy_evaluation`
  threads the policy state through its loop so that its (absence of)
  state mutation is statable.
-/

/-- Python runtime errors reachable from this module, together with the
error names used by the design document. -/
inductive Err where
  | IndexError
  | ValueError
  | ZeroDivisionError
  | InvalidConfiguration
  | DimensionMismatch
  | EmptyDataset
  deriving DecidableEq, Repr

deriving instance DecidableEq for Except

/-- The state of a `ContextualBandit` instance: its four attributes. -/
structure ContextualBandit where
  num_arms : ℕ
  num_features : ℕ
  learning_rate : ℚ
  weights : List (List ℚ)
  deriving DecidableEq, Repr

/-- Source method initialize_weights: `[random.random() for _ in range(num_features)]`,
with the stream offset recording how many draws previous arms consumed. -/
def init_weights (rand : ℕ → ℚ) (offset : ℕ) (num_features : ℕ) : List ℚ :=
  (List.range num_features).map (fun i => rand (offset + i))

/-- Constructor `__init__`: stores the three scalars and builds one weight vector per
arm.  The body is three assignments and a list comprehension and can raise
nothing, so the result is always `.ok`; for `num_arms < 1` (i.e. `0` here:
a negative Python int makes `range` empty exactly like `0`) the weight
matrix is simply empty, and likewise `num_features < 1` gives empty
per-arm vectors.  No validation is performed. -/
def init (num_arms num_features : ℕ) (learning_rate : ℚ) (rand : ℕ → ℚ) :
    Except Err ContextualBandit :=
  .ok { num_arms := num_arms
        num_features := num_features
        learning_rate := learning_rate
        weights := (List.range num_arms).map
          (fun a => init_weights rand (a * num_features) num_features) }

/-- Source method compute_dot_product: `sum(w * c for w, c in zip(weights, context))`.
`zip` truncates to the shorter list, exactly as in Python; no dimension
check of any kind is made. -/
def compute_dot_product (weights context : List ℚ) : ℚ :=
  (List.zipWith (· * ·) weights context).sum

/-- Python `max` over a nonempty list (`ValueError` on an empty one is
handled at the call site). -/
def list_max : List ℚ → Option ℚ
  | [] => none
  | x :: xs =>
    some (match list_max xs with
          | none => x
          | some m => max x m)

/-- Python `list.index`: index of the first occurrence. -/
def idx_of (x : ℚ) : List ℚ → ℕ
  | [] => 0
  | y :: ys => if y = x then 0 else idx_of x ys + 1

/-- The per-arm score `Score(arm, context)` of the design document:
the dot product of the arm's weight vector with the context.  Under the
construction invariant `weights.length = num_arms`, `getD arm []` is
exactly Python's `self.weights[arm]` for `arm < num_arms`. -/
def arm_score (b : ContextualBandit) (arm : ℕ) (context : List ℚ) : ℚ :=
  compute_dot_product (b.weights.getD arm []) context

/-- Source method choose_arm: `values = [dot(weights[arm], context) for arm in range(num_arms)]`
then `values.index(max(values))`.  `max` of an empty list (only possible
when `num_arms = 0`) raises `ValueError`. -/
def choose_arm (b : ContextualBandit) (context : List ℚ) : Except Err ℕ :=
  let values := (List.range b.num_arms).map (fun arm => arm_score b arm context)
  match list_max values with
  | none => .error .ValueError
  | some m => .ok (idx_of m values)

/-- One iteration of the `update_weights` loop body: recompute the dot
product from the CURRENT (partially updated) vector, then
`weights[arm][i] += learning_rate * (reward - dotp) * context[i]`. -/
def update_step (lr reward : ℚ) (context : List ℚ) (w : List ℚ) (i : ℕ) : List ℚ :=
  let dotp := compute_dot_product w context
  w.set i (w.getD i 0 + lr * (reward - dotp) * context.getD i 0)

/-- The whole `for i in range(num_features)` loop of `update_weights`,
acting on the chosen arm's weight vector. -/
def update_loop (lr reward : ℚ) (context : List ℚ) (w : List ℚ) (n : ℕ) : List ℚ :=
  (List.range n).foldl (update_step lr reward context) w

/-- Source method update_weights.  When `num_features > 0` the loop body indexes
`weights[chosen_arm]`, `context[i]` and `weights[chosen_arm][i]` for
`i < num_features`, so Python raises `IndexError` when the arm is out of
range, the context is shorter than `num_features`, or the arm's vector is
shorter than `num_features`; when `num_features = 0` the loop body never
runs and nothing is raised.  (On such an error Python leaves the earlier
components already mutated; no claim here concerns that post-error state,
so the model reports the error without the partial write.)  The trailing
`post_update_weights` hook is `pass` and is dropped. -/
def update_weights (b : ContextualBandit) (chosen_arm : ℕ) (context : List ℚ)
    (reward : ℚ) : Except Err ContextualBandit :=
  if b.num_features ≠ 0 ∧
      (b.weights.length ≤ chosen_arm ∨ context.length < b.num_features ∨
       (b.weights.getD chosen_arm []).length < b.num_features) then
    .error .IndexError
  else
    .ok { b with
          weights := b.weights.set chosen_arm
            (update_loop b.learning_rate reward context
              (b.weights.getD chosen_arm []) b.num_features) }

/-- Source method run: `T` sequential rounds of context → `choose_arm` → reward →
`update_weights`.  The two callback collaborators are modelled as pure
functions of the round index (and, for the reward, the chosen arm). -/
def run (b : ContextualBandit) (T : ℕ) (get_current_context : ℕ → List ℚ)
    (get_reward : ℕ → ℕ → ℚ) : Except Err ContextualBandit :=
  (List.range T).foldlM
    (fun bs t => do
      let context := get_current_context t
      let chosen_arm ← choose_arm bs context
      update_weights bs chosen_arm context (get_reward t chosen_arm))
    b

/-- The body of the `offline_policy_evaluation` loop for one historical
record `(context, actual_arm, reward)`: select an arm with the threaded
policy state and accumulate the logged reward on a match.  `choose_arm`
assigns no field, so the state component is passed on unchanged. -/
def offline_step (acc : ℚ × ContextualBandit) (rec : List ℚ × ℕ × ℚ) :
    Except Err (ℚ × ContextualBandit) := do
  let (context, actual_arm, reward) := rec
  let chosen_arm ← choose_arm acc.2 context
  pure (if chosen_arm = actual_arm then (acc.1 + reward, acc.2) else acc)

/-- Source method offline_policy_evaluation: accumulate the logged reward of every
record whose logged arm equals `choose_arm(context)`, then divide by the
number of records.  The policy state is threaded through the loop (the
translation of the mutable `self`).  The final division is unguarded:
with zero records Python raises `ZeroDivisionError`. -/
def offline_policy_evaluation (b : ContextualBandit)
    (historical_data : List (List ℚ × ℕ × ℚ)) : Except Err (ℚ × ContextualBandit) := do
  let num_samples := historical_data.length
  let st ← historical_data.foldlM offline_step ((0 : ℚ), b)
  if num_samples = 0 then
    .error .ZeroDivisionError
  else
    .ok (st.1 / (num_samples : ℚ), st.2)

/-! ### List helpers -/

/-- Setting an entry to its own current value is the identity.  (An
out-of-range `set` is already the identity.) -/
theorem set_getD_self {α : Type} (l : List α) (i : ℕ) (d : α) :
    l.set i (l.getD i d) = l := by
  induction l generalizing i with
  | nil => simp
  | cons x xs ih =>
    cases i with
    | zero => simp [List.getD]
    | succ j => simpa [List.getD] using ih j

/-- Reading (`getD`) an entry untouched by `set`. -/
theorem getD_set_ne {α : Type} (l : List α) {i j : ℕ} (h : i ≠ j) (x : α) (d : α) :
    (l.set i x).getD j d = l.getD j d := by
  simp [List.getD_eq_getElem?_getD, List.getElem?_set_ne h]

/-- Reading (`getD`) the entry written by an in-range `set`. -/
theorem getD_set_self {α : Type} (l : List α) {i : ℕ} (h : i < l.length)
    (x : α) (d : α) : (l.set i x).getD i d = x := by
  induction l generalizing i with
  | nil => simp at h
  | cons y ys ih =>
    cases i with
    | zero => simp [List.getD]
    | succ j => simpa [List.getD] using ih (Nat.lt_of_succ_lt_succ (by simpa using h))

/-- Reading (`getD`) an entry of `(List.range n).map f` below the length. -/
theorem getD_map_range {α : Type} (f : ℕ → α) {n a : ℕ} (h : a < n) (d : α) :
    (((List.range n).map f).getD a d) = f a := by
  simp [List.getD_eq_getElem?_getD, List.getElem?_map, List.getElem?_range h]

/-! ### `list_max` and `idx_of` (Python `max` and `list.index`) -/

theorem list_max_nil : list_max [] = none := rfl

theorem list_max_isSome {l : List ℚ} (h : l ≠ []) : (list_max l).isSome := by
  cases l with
  | nil => exact absurd rfl h
  | cons x xs => simp [list_max]

/-- The maximum is attained in the list. -/
theorem list_max_mem {l : List ℚ} : ∀ {m : ℚ}, list_max l = some m → m ∈ l := by
  induction l with
  | nil => intro m h; simp [list_max] at h
  | cons x xs ih =>
    intro m h
    simp only [list_max] at h
    have h := Option.some.inj h
    cases hx : list_max xs with
    | none =>
      rw [hx] at h
      have h2 : x = m := h
      rw [← h2]
      exact List.mem_cons_self x xs
    | some m' =>
      rw [hx] at h
      have h2 : max x m' = m := h
      rcases max_choice x m' with hc | hc
      · rw [hc] at h2
        rw [← h2]
        exact List.mem_cons_self x xs
      · rw [hc] at h2
        exact List.mem_cons_of_mem x (h2 ▸ ih hx)

/-- The maximum bounds every element. -/
theorem list_max_le {l : List ℚ} : ∀ {m : ℚ}, list_max l = some m → ∀ x ∈ l, x ≤ m := by
  induction l with
  | nil => intro m h; simp [list_max] at h
  | cons x xs ih =>
    intro m h
    simp only [list_max] at h
    have h := Option.some.inj h
    cases hx : list_max xs with
    | none =>
      rw [hx] at h
      have h2 : x = m := h
      intro y hy
      cases xs with
      | nil =>
        have hyx : y = x := by simpa using hy
        rw [hyx, h2]
      | cons z zs => simp [list_max] at hx
    | some m' =>
      rw [hx] at h
      have h2 : max x m' = m := h
      intro y hy
      rcases List.mem_cons.mp hy with hy | hy
      · rw [hy, ← h2]
        exact le_max_left x m'
      · calc y ≤ m' := ih hx y hy
          _ ≤ max x m' := le_max_right x m'
          _ = m := h2

/-- Python `list.index` stays within the list when the element occurs. -/
theorem idx_of_lt_length {x : ℚ} {l : List ℚ} (h : x ∈ l) :
    idx_of x l < l.length := by
  induction l with
  | nil => simp at h
  | cons y ys ih =>
    by_cases hy : y = x
    · simp [idx_of, hy]
    · have : x ∈ ys := by
        rcases List.mem_cons.mp h with h | h
        · exact absurd h.symm hy
        · exact h
      simpa [idx_of, hy] using ih this

/-- The entry at `list.index(x)` is `x` itself. -/
theorem getD_idx_of {x : ℚ} {l : List ℚ} (h : x ∈ l) :
    l.getD (idx_of x l) 0 = x := by
  induction l with
  | nil => simp at h
  | cons y ys ih =>
    by_cases hy : y = x
    · simp [idx_of, hy, List.getD]
    · have : x ∈ ys := by
        rcases List.mem_cons.mp h with h | h
        · exact absurd h.symm hy
        · exact h
      simpa [idx_of, hy, List.getD] using ih this

/-- Python `list.index` returns the FIRST occurrence: everything before it
differs from `x`. -/
theorem getD_ne_of_lt_idx_of {x : ℚ} {l : List ℚ} {i : ℕ}
    (h : i < idx_of x l) : l.getD i 0 ≠ x := by
  induction l generalizing i with
  | nil => simp [idx_of] at h
  | cons y ys ih =>
    by_cases hy : y = x
    · simp [idx_of, hy] at h
    · cases i with
      | zero => simpa [List.getD] using hy
      | succ j =>
        simp only [idx_of, hy, if_false] at h
        simpa [List.getD] using ih (Nat.lt_of_succ_lt_succ h)

/-! ### `choose_arm` characterization -/

/-- With at least one arm, `choose_arm` succeeds (for a context of ANY
length) and returns the least index attaining the maximal score. -/
theorem choose_arm_char (b : ContextualBandit) (context : List ℚ)
    (h : 1 ≤ b.num_arms) :
    ∃ j, choose_arm b context = .ok j ∧ j < b.num_arms ∧
      (∀ a, a < b.num_arms → arm_score b a context ≤ arm_score b j context) ∧
      (∀ i, i < j → arm_score b i context < arm_score b j context) := by
  set values : List ℚ :=
    (List.range b.num_arms).map (fun arm => arm_score b arm context) with hv
  have hlen : values.length = b.num_arms := by simp [hv]
  have hne : values ≠ [] := by
    intro hcon
    rw [hcon] at hlen
    simp at hlen
    omega
  obtain ⟨m, hmax⟩ := Option.isSome_iff_exists.mp (list_max_isSome hne)
  have hmem : m ∈ values := list_max_mem hmax
  have hjlt : idx_of m values < b.num_arms := hlen ▸ idx_of_lt_length hmem
  have hget : ∀ a, a < b.num_arms → values.getD a 0 = arm_score b a context := by
    intro a ha
    rw [hv]
    exact getD_map_range _ ha 0
  have hscorej : arm_score b (idx_of m values) context = m := by
    rw [← hget _ hjlt, getD_idx_of hmem]
  have hmem_score : ∀ a, a < b.num_arms → arm_score b a context ∈ values := by
    intro a ha
    rw [hv]
    exact List.mem_map.mpr ⟨a, List.mem_range.mpr ha, rfl⟩
  refine ⟨idx_of m values, ?_, hjlt, ?_, ?_⟩
  · simp only [choose_arm]
    rw [← hv, hmax]
  · intro a ha
    rw [hscorej]
    exact list_max_le hmax _ (hmem_score a ha)
  · intro i hi
    have hia : i < b.num_arms := lt_trans hi hjlt
    have hne' : values.getD i 0 ≠ m := getD_ne_of_lt_idx_of hi
    rw [hget i hia] at hne'
    rw [hscorej]
    exact lt_of_le_of_ne (list_max_le hmax _ (hmem_score i hia)) hne'

/-! ### `update_weights` structure -/

/-- Unrolling the last iteration of the update loop. -/
theorem update_loop_succ (lr reward : ℚ) (context w : List ℚ) (n : ℕ) :
    update_loop lr reward context w (n + 1) =
      update_step lr reward context (update_loop lr reward context w n) n := by
  simp [update_loop, List.range_succ]

/-- Each loop iteration keeps the vector's length. -/
theorem update_step_length (lr reward : ℚ) (context w : List ℚ) (i : ℕ) :
    (update_step lr reward context w i).length = w.length := by
  simp [update_step]

/-- The whole loop keeps the vector's length. -/
theorem update_loop_length (lr reward : ℚ) (context w : List ℚ) (n : ℕ) :
    (update_loop lr reward context w n).length = w.length := by
  induction n with
  | zero => rfl
  | succ k ih => rw [update_loop_succ, update_step_length, ih]

/-- An iteration whose context component is zero changes nothing. -/
theorem update_step_zero (lr reward : ℚ) (context w : List ℚ) (i : ℕ)
    (h : context.getD i 0 = 0) : update_step lr reward context w i = w := by
  have h' : context[i]?.getD 0 = 0 := by
    rw [← List.getD_eq_getElem?_getD]
    exact h
  simp [update_step, h']
  rw [← List.getD_eq_getElem?_getD]
  exact set_getD_self w i 0

/-- Iterations after step `i` never touch component `i` again. -/
theorem update_loop_getD_stable (lr reward : ℚ) (context w : List ℚ)
    {i n : ℕ} (hi : i < n) :
    (update_loop lr reward context w n).getD i 0 =
      (update_loop lr reward context w (i + 1)).getD i 0 := by
  induction n with
  | zero => omega
  | succ k ih =>
    rcases Nat.lt_or_ge i k with hk | hk
    · rw [update_loop_succ, update_step, getD_set_ne _ (Nat.ne_of_gt hk)]
      exact ih hk
    · have : i = k := by omega
      subst this
      rfl

/-- Destructing a successful `update_weights` call: the new state is the
old one with the chosen arm's vector run through the loop. -/
theorem update_weights_ok {b : ContextualBandit} {chosen_arm : ℕ}
    {context : List ℚ} {reward : ℚ} {b' : ContextualBandit}
    (h : update_weights b chosen_arm context reward = .ok b') :
    b' = { b with
           weights := b.weights.set chosen_arm
             (update_loop b.learning_rate reward context
               (b.weights.getD chosen_arm []) b.num_features) } := by
  unfold update_weights at h
  split at h
  · simp at h
  · exact (Except.ok.inj h).symm

/-- A successful `update_weights` leaves every OTHER arm's vector (and
all scalar attributes) exactly as they were. -/
theorem update_weights_frame {b : ContextualBandit} {chosen_arm : ℕ}
    {context : List ℚ} {reward : ℚ} {b' : ContextualBandit}
    (h : update_weights b chosen_arm context reward = .ok b') :
    b'.num_arms = b.num_arms ∧ b'.num_features = b.num_features ∧
    b'.learning_rate = b.learning_rate ∧
    ∀ j, j ≠ chosen_arm → b'.weights.getD j [] = b.weights.getD j [] := by
  rw [update_weights_ok h]
  refine ⟨rfl, rfl, rfl, ?_⟩
  intro j hj
  exact getD_set_ne _ (fun hc => hj hc.symm) _ _

/-! ### Shape invariant -/

/-- The data-model invariant: one weight vector per arm, each with
exactly `num_features` entries. -/
def ShapeInv (b : ContextualBandit) : Prop :=
  b.weights.length = b.num_arms ∧ ∀ w ∈ b.weights, w.length = b.num_features

/-- Construction establishes the shape invariant. -/
theorem init_shape (num_arms num_features : ℕ) (learning_rate : ℚ)
    (rand : ℕ → ℚ) {b : ContextualBandit}
    (h : init num_arms num_features learning_rate rand = .ok b) :
    ShapeInv b := by
  have hb : b = { num_arms := num_arms, num_features := num_features,
                  learning_rate := learning_rate,
                  weights := (List.range num_arms).map
                    (fun a => init_weights rand (a * num_features) num_features) } :=
    (Except.ok.inj h).symm
  subst hb
  constructor
  · simp
  · intro w hw
    obtain ⟨a, _, rfl⟩ := List.mem_map.mp hw
    simp [init_weights]

/-- A successful `update_weights` preserves the shape invariant (each
iteration is a `set`, which never changes a length). -/
theorem update_weights_shape {b : ContextualBandit} {chosen_arm : ℕ}
    {context : List ℚ} {reward : ℚ} {b' : ContextualBandit}
    (h : update_weights b chosen_arm context reward = .ok b')
    (hinv : ShapeInv b) : ShapeInv b' := by
  obtain ⟨hlen, hall⟩ := hinv
  rw [update_weights_ok h]
  constructor
  · simpa using hlen
  · intro w hw
    simp only at hw ⊢
    rcases Nat.lt_or_ge chosen_arm b.weights.length with hc | hc
    · rcases List.mem_or_eq_of_mem_set hw with hw' | hw'
      · exact hall w hw'
      · rw [hw', update_loop_length, List.getD_eq_getElem _ _ hc]
        exact hall _ (List.getElem_mem hc)
    · rw [List.set_eq_of_length_le hc] at hw
      exact hall w hw

/-! ### Generic fold facts for the two driver loops -/

/-- An invariant preserved by each successful step of an `Except`-valued
left fold is preserved by the whole fold. -/
theorem foldlM_inv {α β : Type} (P : β → Prop) (f : β → α → Except Err β)
    (hf : ∀ s a s', P s → f s a = .ok s' → P s') :
    ∀ (l : List α) (s s' : β), P s → l.foldlM f s = .ok s' → P s' := by
  intro l
  induction l with
  | nil =>
    intro s s' hs h
    rw [List.foldlM_nil] at h
    have : s = s' := Except.ok.inj h
    rwa [← this]
  | cons x xs ih =>
    intro s s' hs h
    rw [List.foldlM_cons] at h
    cases hfx : f s x with
    | error e =>
      rw [hfx] at h
      exact absurd h (by simp [Bind.bind, Except.bind])
    | ok s1 =>
      rw [hfx] at h
      exact ih s1 s' (hf s x s1 hs hfx) h

/-- The method run preserves the shape invariant: every round is a `choose_arm`
(no mutation) followed by an `update_weights`. -/
theorem run_shape {b b' : ContextualBandit} {T : ℕ}
    {get_current_context : ℕ → List ℚ} {get_reward : ℕ → ℕ → ℚ}
    (h : run b T get_current_context get_reward = .ok b')
    (hinv : ShapeInv b) : ShapeInv b' := by
  refine foldlM_inv ShapeInv _ ?_ (List.range T) b b' hinv h
  intro s t s' hs hstep
  simp only at hstep
  cases hc : choose_arm s (get_current_context t) with
  | error e =>
    rw [hc] at hstep
    exact absurd hstep (by simp [Bind.bind, Except.bind])
  | ok arm =>
    rw [hc] at hstep
    exact update_weights_shape hstep hs

/-! ### Offline evaluation characterization -/

theorem except_bind_ok {α β : Type} (x : α) (f : α → Except Err β) :
    (Except.ok x >>= f) = f x := rfl

theorem except_bind_error {α β : Type} (e : Err) (f : α → Except Err β) :
    ((Except.error e : Except Err α) >>= f) = Except.error e := rfl

/-- The replay contribution of one historical record: the logged reward
when the policy's selected arm equals the logged arm, zero otherwise. -/
def record_contrib (b : ContextualBandit) (rec : List ℚ × ℕ × ℚ) : ℚ :=
  if choose_arm b rec.1 = Except.ok rec.2.1 then rec.2.2 else 0

/-- One offline step succeeds (given at least one arm) and adds exactly
the record's replay contribution, leaving the policy state untouched. -/
theorem offline_step_ok (b : ContextualBandit) (h : 1 ≤ b.num_arms)
    (acc : ℚ) (rec : List ℚ × ℕ × ℚ) :
    offline_step (acc, b) rec = .ok (acc + record_contrib b rec, b) := by
  obtain ⟨context, actual_arm, reward⟩ := rec
  obtain ⟨j, hj, -, -, -⟩ := choose_arm_char b context h
  simp only [offline_step]
  rw [hj, except_bind_ok]
  by_cases hcase : j = actual_arm
  · subst hcase
    simp [record_contrib, hj, pure, Except.pure]
  · simp [record_contrib, hj, hcase, pure, Except.pure]

/-- The offline loop over any record list: total accumulated reward is
the sum of the records' replay contributions, and the policy state comes
out exactly as it went in. -/
theorem offline_fold (b : ContextualBandit) (h : 1 ≤ b.num_arms) :
    ∀ (data : List (List ℚ × ℕ × ℚ)) (acc : ℚ),
      data.foldlM offline_step (acc, b) =
        .ok (acc + (data.map (record_contrib b)).sum, b) := by
  intro data
  induction data with
  | nil =>
    intro acc
    rw [List.foldlM_nil]
    simp [pure, Except.pure]
  | cons rec rest ih =>
    intro acc
    rw [List.foldlM_cons, offline_step_ok b h acc rec, except_bind_ok,
        ih (acc + record_contrib b rec)]
    simp [add_assoc]

/-- Full characterization of `offline_policy_evaluation` on a nonempty
dataset (with at least one arm): the returned value is the sum of the
matching records' rewards divided by the record count, and the policy
state is returned unchanged. -/
theorem offline_eval_eq (b : ContextualBandit) (h : 1 ≤ b.num_arms)
    (data : List (List ℚ × ℕ × ℚ)) (hne : data ≠ []) :
    offline_policy_evaluation b data =
      .ok ((data.map (record_contrib b)).sum / (data.length : ℚ), b) := by
  simp only [offline_policy_evaluation]
  rw [offline_fold b h data 0, except_bind_ok]
  have hlen : data.length ≠ 0 := fun hc => hne (List.eq_nil_of_length_eq_zero hc)
  simp [hlen]

/-- One offline step never changes the threaded policy state. -/
theorem offline_step_state {st st' : ℚ × ContextualBandit}
    {rec : List ℚ × ℕ × ℚ} (h : offline_step st rec = .ok st') :
    st'.2 = st.2 := by
  obtain ⟨context, actual_arm, reward⟩ := rec
  simp only [offline_step] at h
  cases hc : choose_arm st.2 context with
  | error e =>
    rw [hc, except_bind_error] at h
    exact absurd h (by simp)
  | ok j =>
    rw [hc, except_bind_ok] at h
    have h' : (if j = actual_arm then (st.1 + reward, st.2) else st) = st' :=
      Except.ok.inj h
    rw [← h']
    by_cases hcase : j = actual_arm <;> simp [hcase]

/-- Whenever `offline_policy_evaluation` returns at all, the returned
policy state is the input state, bit for bit. -/
theorem offline_eval_state {b b' : ContextualBandit}
    {data : List (List ℚ × ℕ × ℚ)} {v : ℚ}
    (h : offline_policy_evaluation b data = .ok (v, b')) : b' = b := by
  simp only [offline_policy_evaluation] at h
  cases hf : data.foldlM offline_step ((0 : ℚ), b) with
  | error e =>
    rw [hf, except_bind_error] at h
    exact absurd h (by simp)
  | ok st =>
    rw [hf, except_bind_ok] at h
    have hst : st.2 = b :=
      foldlM_inv (fun s => s.2 = b) offline_step
        (fun s a s' hs hstep => (offline_step_state hstep).trans hs)
        data ((0 : ℚ), b) st rfl hf
    split at h
    · exact absurd h (by simp)
    · have h2 := congrArg Prod.snd (Except.ok.inj h)
      simp only at h2
      rw [← h2, hst]

/-! ### The single-prediction update rule of the design document -/

/-- Modelled from the spec: one component step of the documented
single-step update rule, with the `prediction` scalar supplied from
outside the loop instead of being recomputed. -/
def single_prediction_step (lr reward prediction : ℚ) (context v : List ℚ)
    (i : ℕ) : List ℚ :=
  v.set i (v.getD i 0 + lr * (reward - prediction) * context.getD i 0)

/-- Modelled from the spec: the documented update rule for the chosen
arm's vector — `w_i + learning_rate * (reward - dot(w, context)) * context_i`
for every `i`, with the dot product computed ONCE from the pre-update
weights before the per-feature loop begins. -/
def single_prediction_update (lr reward : ℚ) (context w : List ℚ) (n : ℕ) :
    List ℚ :=
  let prediction := compute_dot_product w context
  (List.range n).foldl (single_prediction_step lr reward prediction context) w

theorem single_prediction_succ (lr reward prediction : ℚ) (context w : List ℚ)
    (n : ℕ) :
    (List.range (n + 1)).foldl (single_prediction_step lr reward prediction context) w =
      single_prediction_step lr reward prediction context
        ((List.range n).foldl (single_prediction_step lr reward prediction context) w)
        n := by
  simp [List.range_succ]

/-- A single-prediction step over a zero context component is the
identity. -/
theorem single_prediction_step_zero (lr reward prediction : ℚ)
    (context v : List ℚ) (i : ℕ) (h : context.getD i 0 = 0) :
    single_prediction_step lr reward prediction context v i = v := by
  have h' : context[i]?.getD 0 = 0 := by
    rw [← List.getD_eq_getElem?_getD]
    exact h
  simp [single_prediction_step, h']
  rw [← List.getD_eq_getElem?_getD]
  exact set_getD_self v i 0

/-- On the base vector, one code iteration at `k` and one documented
step at `k` with the pre-update prediction coincide. -/
theorem update_step_eq_single_prediction_step (lr reward : ℚ)
    (context w : List ℚ) (k : ℕ) :
    update_step lr reward context w k =
      single_prediction_step lr reward (compute_dot_product w context) context w k :=
  rfl

/-- When at most one context component (index `k`) is nonzero, the code's
loop collapses to the single step at `k` on the base vector. -/
theorem update_loop_one_hot (lr reward : ℚ) (context w : List ℚ) {k : ℕ}
    (h : ∀ i, i ≠ k → context.getD i 0 = 0) :
    ∀ n, update_loop lr reward context w n =
      if k < n then update_step lr reward context w k else w := by
  intro n
  induction n with
  | zero => simp [update_loop]
  | succ m ih =>
    rw [update_loop_succ, ih]
    by_cases hmk : m = k
    · subst hmk
      rw [if_neg (lt_irrefl m), if_pos (Nat.lt_succ_self m)]
    · rw [update_step_zero lr reward context _ m (h m hmk)]
      by_cases hk : k < m
      · rw [if_pos hk, if_pos (Nat.lt_succ_of_lt hk)]
      · rw [if_neg hk, if_neg (by omega)]

/-- The same collapse for the documented single-prediction loop. -/
theorem single_prediction_one_hot (lr reward prediction : ℚ)
    (context w : List ℚ) {k : ℕ}
    (h : ∀ i, i ≠ k → context.getD i 0 = 0) :
    ∀ n, (List.range n).foldl (single_prediction_step lr reward prediction context) w =
      if k < n then single_prediction_step lr reward prediction context w k else w := by
  intro n
  induction n with
  | zero => simp
  | succ m ih =>
    rw [single_prediction_succ, ih]
    by_cases hmk : m = k
    · subst hmk
      rw [if_neg (lt_irrefl m), if_pos (Nat.lt_succ_self m)]
    · rw [single_prediction_step_zero lr reward prediction context _ m (h m hmk)]
      by_cases hk : k < m
      · rw [if_pos hk, if_pos (Nat.lt_succ_of_lt hk)]
      · rw [if_neg hk, if_neg (by omega)]

/-- For a context with at most one nonzero component, the code's
coordinate-refreshing loop and the documented single-prediction rule
produce the same vector. -/
theorem update_loop_eq_single_prediction (lr reward : ℚ) (context w : List ℚ)
    (hhot : ∀ i j, i ≠ j → context.getD i 0 = 0 ∨ context.getD j 0 = 0)
    (n : ℕ) :
    update_loop lr reward context w n =
      single_prediction_update lr reward context w n := by
  obtain ⟨k, hk⟩ : ∃ k, ∀ i, i ≠ k → context.getD i 0 = 0 := by
    by_cases hall : ∀ i, context.getD i 0 = 0
    · exact ⟨0, fun i _ => hall i⟩
    · push_neg at hall
      obtain ⟨k, hknz⟩ := hall
      exact ⟨k, fun i hik => (hhot i k hik).resolve_right hknz⟩
  rw [update_loop_one_hot lr reward context w hk n]
  simp only [single_prediction_update]
  rw [single_prediction_one_hot lr reward _ context w hk n,
      update_step_eq_single_prediction_step]

/-! ### Sequences of public operations -/

/-- A successful `run` keeps the three scalar attributes (every round's
`update_weights` does). -/
theorem run_fields {b b' : ContextualBandit} {T : ℕ}
    {get_current_context : ℕ → List ℚ} {get_reward : ℕ → ℕ → ℚ}
    (h : run b T get_current_context get_reward = .ok b') :
    b'.num_arms = b.num_arms ∧ b'.num_features = b.num_features ∧
    b'.learning_rate = b.learning_rate := by
  refine foldlM_inv
    (fun s => s.num_arms = b.num_arms ∧ s.num_features = b.num_features ∧
      s.learning_rate = b.learning_rate)
    _ ?_ (List.range T) b b' ⟨rfl, rfl, rfl⟩ h
  intro s t s' hs hstep
  simp only at hstep
  cases hc : choose_arm s (get_current_context t) with
  | error e =>
    rw [hc, except_bind_error] at hstep
    exact absurd hstep (by simp)
  | ok arm =>
    rw [hc, except_bind_ok] at hstep
    obtain ⟨f1, f2, f3, -⟩ := update_weights_frame hstep
    exact ⟨f1.trans hs.1, f2.trans hs.2.1, f3.trans hs.2.2⟩

/-- The five operations a caller can invoke on a constructed policy.
`Run`'s callback collaborators are pure functions of the round index,
as in `run`. -/
inductive Op where
  | score (arm : ℕ) (context : List ℚ)
  | select (context : List ℚ)
  | update (arm : ℕ) (context : List ℚ) (reward : ℚ)
  | runRounds (T : ℕ) (get_current_context : ℕ → List ℚ) (get_reward : ℕ → ℕ → ℚ)
  | offline (data : List (List ℚ × ℕ × ℚ))

/-- The policy state after one operation.  `score`/`select` are pure
reads, `offline` returns its threaded state, and `update`/`runRounds`
install the new state on success; a raising call contributes its input
state (any partially mutated vector in Python still has unchanged
length, which is all the invariant below consumes). -/
def apply_op (b : ContextualBandit) : Op → ContextualBandit
  | .score _ _ => b
  | .select _ => b
  | .update arm context reward =>
    match update_weights b arm context reward with
    | .ok b' => b'
    | .error _ => b
  | .runRounds T get_current_context get_reward =>
    match run b T get_current_context get_reward with
    | .ok b' => b'
    | .error _ => b
  | .offline data =>
    match offline_policy_evaluation b data with
    | .ok st => st.2
    | .error _ => b

/-- Each operation preserves the shape invariant. -/
theorem apply_op_shape {b : ContextualBandit} (hinv : ShapeInv b) (op : Op) :
    ShapeInv (apply_op b op) := by
  cases op with
  | score arm context => exact hinv
  | select context => exact hinv
  | update arm context reward =>
    simp only [apply_op]
    cases h : update_weights b arm context reward with
    | ok b' => exact update_weights_shape h hinv
    | error e => exact hinv
  | runRounds T get_current_context get_reward =>
    simp only [apply_op]
    cases h : run b T get_current_context get_reward with
    | ok b' => exact run_shape h hinv
    | error e => exact hinv
  | offline data =>
    simp only [apply_op]
    cases h : offline_policy_evaluation b data with
    | ok st =>
      obtain ⟨v, bst⟩ := st
      have hb := offline_eval_state h
      show ShapeInv bst
      rw [hb]
      exact hinv
    | error e => exact hinv

/-- Each operation keeps the three scalar attributes. -/
theorem apply_op_fields (b : ContextualBandit) (op : Op) :
    (apply_op b op).num_arms = b.num_arms ∧
    (apply_op b op).num_features = b.num_features ∧
    (apply_op b op).learning_rate = b.learning_rate := by
  cases op with
  | score arm context => exact ⟨rfl, rfl, rfl⟩
  | select context => exact ⟨rfl, rfl, rfl⟩
  | update arm context reward =>
    simp only [apply_op]
    cases h : update_weights b arm context reward with
    | ok b' =>
      obtain ⟨f1, f2, f3, -⟩ := update_weights_frame h
      exact ⟨f1, f2, f3⟩
    | error e => exact ⟨rfl, rfl, rfl⟩
  | runRounds T get_current_context get_reward =>
    simp only [apply_op]
    cases h : run b T get_current_context get_reward with
    | ok b' => exact run_fields h
    | error e => exact ⟨rfl, rfl, rfl⟩
  | offline data =>
    simp only [apply_op]
    cases h : offline_policy_evaluation b data with
    | ok st =>
      obtain ⟨v, bst⟩ := st
      have hb := offline_eval_state h
      show bst.num_arms = b.num_arms ∧ bst.num_features = b.num_features ∧
        bst.learning_rate = b.learning_rate
      rw [hb]
      exact ⟨rfl, rfl, rfl⟩
    | error e => exact ⟨rfl, rfl, rfl⟩

/-- Any sequence of operations preserves the shape invariant. -/
theorem ops_shape {b : ContextualBandit} (hinv : ShapeInv b) (ops : List Op) :
    ShapeInv (ops.foldl apply_op b) := by
  induction ops generalizing b with
  | nil => exact hinv
  | cons op rest ih => exact ih (apply_op_shape hinv op)

/-- Any sequence of operations keeps the three scalar attributes. -/
theorem ops_fields (b : ContextualBandit) (ops : List Op) :
    (ops.foldl apply_op b).num_arms = b.num_arms ∧
    (ops.foldl apply_op b).num_features = b.num_features ∧
    (ops.foldl apply_op b).learning_rate = b.learning_rate := by
  induction ops generalizing b with
  | nil => exact ⟨rfl, rfl, rfl⟩
  | cons op rest ih =>
    obtain ⟨g1, g2, g3⟩ := ih (apply_op b op)
    obtain ⟨f1, f2, f3⟩ := apply_op_fields b op
    exact ⟨g1.trans f1, g2.trans f2, g3.trans f3⟩

/-- Freshly initialized weights all lie in `[0, 1)` when the random
stream does. -/
theorem init_range (num_arms num_features : ℕ) (learning_rate : ℚ)
    (rand : ℕ → ℚ) {b : ContextualBandit}
    (hrand : ∀ n, 0 ≤ rand n ∧ rand n < 1)
    (h : init num_arms num_features learning_rate rand = .ok b) :
    ∀ w ∈ b.weights, ∀ x ∈ w, 0 ≤ x ∧ x < 1 := by
  have hb := Except.ok.inj h
  intro w hw x hx
  rw [← hb] at hw
  simp only at hw
  obtain ⟨a, -, rfl⟩ := List.mem_map.mp hw
  obtain ⟨i, -, rfl⟩ := List.mem_map.mp hx
  exact hrand _

/-! ### Claims -/

/-- C1, counterexample: the claim is false on the code.  With one arm,
`learning_rate = 1`, weights `[0, 0]`, context `[1, 1]`, reward `1`, the
pre-update prediction is `dot([0,0],[1,1]) = 0`, so the claimed formula
makes component 1 equal `0 + 1*(1 - 0)*1 = 1`; the code actually
produces `[1, 0]` (component 1 stays `0`), because by the time `i = 1`
is processed the recomputed prediction is already `1`. -/
theorem C1_counterexample :
    (update_weights ⟨1, 2, 1, [[0, 0]]⟩ 0 [1, 1] 1).map (fun b => b.weights) =
      .ok [[1, 0]] ∧
    (0 : ℚ) + 1 * (1 - compute_dot_product [0, 0] [1, 1]) * 1 = 1 ∧
    (0 : ℚ) ≠ 1 := by
  refine ⟨?_, ?_, by norm_num⟩
  · norm_num [update_weights, update_loop, update_step, compute_dot_product,
      List.range_succ, Except.map]
  · norm_num [compute_dot_product]

/-- C1 (amended): for every valid arm index, context, reward and
learning rate, `update_weights` performs a sequential per-feature sweep
in which component `i`'s new value is
`v_i + learning_rate * (reward - dot(v, context)) * context_i` where `v`
is the PARTIALLY UPDATED vector after the first `i` steps — the
prediction is recomputed inside the loop after each component changes,
not computed once before the loop begins. -/
theorem C1_coordinate_descent {b b' : ContextualBandit} {chosen_arm : ℕ}
    {context : List ℚ} {reward : ℚ}
    (h : update_weights b chosen_arm context reward = .ok b')
    (harm : chosen_arm < b.weights.length)
    (hw : b.num_features ≤ (b.weights.getD chosen_arm []).length)
    {i : ℕ} (hi : i < b.num_features) :
    (b'.weights.getD chosen_arm []).getD i 0 =
      (update_loop b.learning_rate reward context
          (b.weights.getD chosen_arm []) i).getD i 0
        + b.learning_rate
          * (reward - compute_dot_product
              (update_loop b.learning_rate reward context
                (b.weights.getD chosen_arm []) i) context)
          * context.getD i 0 := by
  rw [update_weights_ok h]
  dsimp only
  rw [getD_set_self _ harm]
  rw [update_loop_getD_stable b.learning_rate reward context
    (b.weights.getD chosen_arm []) hi]
  rw [update_loop_succ]
  have hlen2 : i < (update_loop b.learning_rate reward context
      (b.weights.getD chosen_arm []) i).length := by
    rw [update_loop_length]
    omega
  simp only [update_step]
  rw [getD_set_self _ hlen2]

/-- C1 witness: the amended per-step formula evaluated on the concrete
counterexample instance, at component `i = 1`. -/
theorem C1_coordinate_descent_witness :
    ((⟨1, 2, 1, [[1, 0]]⟩ : ContextualBandit).weights.getD 0 []).getD 1 0 =
      (update_loop (1 : ℚ) 1 [1, 1] [0, 0] 1).getD 1 0
        + (1 : ℚ)
          * ((1 : ℚ) - compute_dot_product (update_loop (1 : ℚ) 1 [1, 1] [0, 0] 1) [1, 1])
          * ([1, 1] : List ℚ).getD 1 0 := by
  have h : update_weights ⟨1, 2, 1, [[0, 0]]⟩ 0 [1, 1] 1 =
      .ok ⟨1, 2, 1, [[1, 0]]⟩ := by
    norm_num [update_weights, update_loop, update_step, compute_dot_product,
      List.range_succ]
  exact C1_coordinate_descent h (by decide) (by decide) (by decide)

/-- C2, counterexample: constructing with `num_arms = 0` (i.e.
`num_arms < 1`) does NOT fail — `__init__` performs no validation and
returns a policy with an empty weight matrix, so no
`InvalidConfiguration` error is raised. -/
theorem C2_counterexample :
    init 0 5 (1 / 10) (fun _ => 1 / 2) = .ok ⟨0, 5, 1 / 10, []⟩ ∧
    init 0 5 (1 / 10) (fun _ => 1 / 2) ≠ .error Err.InvalidConfiguration := by
  constructor
  · rfl
  · simp [init]

/-- C2 (amended): construction NEVER fails — no validation of
`num_arms` or `num_features` is performed.  For any arguments it returns
a policy storing the three scalars with one freshly drawn weight vector
per arm (an empty matrix when `num_arms = 0`, empty vectors when
`num_features = 0`); in particular construction with
`num_arms ≥ 1 ∧ num_features ≥ 1` succeeds. -/
theorem C2_init_total (num_arms num_features : ℕ) (learning_rate : ℚ)
    (rand : ℕ → ℚ) :
    ∃ b, init num_arms num_features learning_rate rand = .ok b ∧
      b.num_arms = num_arms ∧ b.num_features = num_features ∧
      b.learning_rate = learning_rate ∧ b.weights.length = num_arms := by
  refine ⟨_, rfl, rfl, rfl, rfl, ?_⟩
  simp [init]

/-- C3, counterexample: a context of length 1 on a policy with
`num_features = 2` raises no `DimensionMismatch` anywhere: `choose_arm`
succeeds (zip silently truncates), the score is a defined value, and
`update_weights` raises a plain `IndexError`, a different error. -/
theorem C3_counterexample :
    choose_arm ⟨1, 2, 1 / 10, [[1, 1]]⟩ [1] = .ok 0 ∧
    compute_dot_product [1, 1] [1] = 1 ∧
    update_weights ⟨1, 2, 1 / 10, [[1, 1]]⟩ 0 [1] 0 = .error Err.IndexError ∧
    Err.IndexError ≠ Err.DimensionMismatch := by
  refine ⟨?_, ?_, ?_, by decide⟩
  · norm_num [choose_arm, arm_score, compute_dot_product, List.range_succ,
      list_max, idx_of]
  · norm_num [compute_dot_product]
  · norm_num [update_weights]

/-- C3 (amended): no operation checks the context's length, and no
`DimensionMismatch` error exists in the code.  `Score`
(`compute_dot_product`) is a total function computing over the zip
truncation; `SelectArm` succeeds for a context of ANY length whenever
there is at least one arm; `UpdateWeights` raises the generic
`IndexError` when `num_features > 0` and the context is SHORTER than
`num_features` (an out-of-range `context[i]`), and succeeds — with no
error at all — when the context is longer than or equal to
`num_features`. -/
theorem C3_no_dimension_check (b : ContextualBandit) (context : List ℚ)
    (harms : 1 ≤ b.num_arms) :
    (∃ j, choose_arm b context = .ok j ∧ j < b.num_arms) ∧
    (∀ chosen_arm reward, 0 < b.num_features → chosen_arm < b.weights.length →
      b.num_features ≤ (b.weights.getD chosen_arm []).length →
      context.length < b.num_features →
      update_weights b chosen_arm context reward = .error Err.IndexError) ∧
    (∀ chosen_arm reward, chosen_arm < b.weights.length →
      b.num_features ≤ (b.weights.getD chosen_arm []).length →
      b.num_features ≤ context.length →
      ∃ b', update_weights b chosen_arm context reward = .ok b') := by
  refine ⟨?_, ?_, ?_⟩
  · obtain ⟨j, h1, h2, -, -⟩ := choose_arm_char b context harms
    exact ⟨j, h1, h2⟩
  · intro chosen_arm reward hnf _ _ hshort
    rw [update_weights, if_pos ⟨by omega, Or.inr (Or.inl hshort)⟩]
  · intro chosen_arm reward h1 h2 h3
    refine ⟨⟨b.num_arms, b.num_features, b.learning_rate,
      b.weights.set chosen_arm (update_loop b.learning_rate reward context
        (b.weights.getD chosen_arm []) b.num_features)⟩, ?_⟩
    rw [update_weights, if_neg (by omega)]

/-- C3 witness for the amended claim, at the counterexample instance:
one arm, `num_features = 2`, context `[1]` of length 1. -/
theorem C3_no_dimension_check_witness :
    (∃ j, choose_arm ⟨1, 2, 1 / 10, [[1, 1]]⟩ [1] = .ok j ∧ j < 1) ∧
    (∀ chosen_arm reward, 0 < 2 → chosen_arm < 1 →
      2 ≤ (([[1, 1]] : List (List ℚ)).getD chosen_arm []).length →
      ([1] : List ℚ).length < 2 →
      update_weights ⟨1, 2, 1 / 10, [[1, 1]]⟩ chosen_arm [1] reward =
        .error Err.IndexError) ∧
    (∀ chosen_arm reward, chosen_arm < 1 →
      2 ≤ (([[1, 1]] : List (List ℚ)).getD chosen_arm []).length →
      2 ≤ ([1] : List ℚ).length →
      ∃ b', update_weights ⟨1, 2, 1 / 10, [[1, 1]]⟩ chosen_arm [1] reward = .ok b') :=
  C3_no_dimension_check ⟨1, 2, 1 / 10, [[1, 1]]⟩ [1] (by decide)

/-- C4, counterexample: `offline_policy_evaluation` on an empty record
list performs the final division with `num_samples = 0` and raises a
`ZeroDivisionError`, not a dedicated `EmptyDataset` error (which does
not exist in the code). -/
theorem C4_counterexample :
    offline_policy_evaluation ⟨2, 2, 1 / 10, [[1, 0], [0, 1]]⟩ [] =
      .error Err.ZeroDivisionError ∧
    Err.ZeroDivisionError ≠ Err.EmptyDataset := by
  exact ⟨rfl, by decide⟩

/-- C4 (amended): on an empty dataset the accumulation loop runs zero
times and the unguarded division `total_reward / 0` raises
`ZeroDivisionError` — there is no `EmptyDataset` guard. -/
theorem C4_empty_dataset (b : ContextualBandit) :
    offline_policy_evaluation b [] = .error Err.ZeroDivisionError := rfl

/-- C5: for every context of length `num_features` and every weight
state (any policy with at least one arm), `choose_arm` returns the
LOWEST index among the arms attaining the maximum score — in particular
when two or more arms tie for the maximum.  Repeated calls with the same
context and weights return the same result because `choose_arm` is a
pure function of the policy state and the context. -/
theorem C5_lowest_index_tie_break (b : ContextualBandit) (context : List ℚ)
    (harms : 1 ≤ b.num_arms) (_hlen : context.length = b.num_features) :
    ∃ j, choose_arm b context = .ok j ∧ j < b.num_arms ∧
      (∀ a, a < b.num_arms → arm_score b a context ≤ arm_score b j context) ∧
      (∀ i, i < j → arm_score b i context < arm_score b j context) :=
  choose_arm_char b context harms

/-- C5 witness: three arms where arms 0 and 1 tie for the maximum score
on context `[1, 0]`. -/
theorem C5_witness :
    ∃ j, choose_arm ⟨3, 2, 1 / 10, [[1, 0], [1, 0], [0, 1]]⟩ [1, 0] = .ok j ∧
      j < 3 ∧
      (∀ a, a < 3 →
        arm_score ⟨3, 2, 1 / 10, [[1, 0], [1, 0], [0, 1]]⟩ a [1, 0] ≤
          arm_score ⟨3, 2, 1 / 10, [[1, 0], [1, 0], [0, 1]]⟩ j [1, 0]) ∧
      (∀ i, i < j →
        arm_score ⟨3, 2, 1 / 10, [[1, 0], [1, 0], [0, 1]]⟩ i [1, 0] <
          arm_score ⟨3, 2, 1 / 10, [[1, 0], [1, 0], [0, 1]]⟩ j [1, 0]) :=
  C5_lowest_index_tie_break ⟨3, 2, 1 / 10, [[1, 0], [1, 0], [0, 1]]⟩ [1, 0]
    (by decide) (by decide)

/-- C6: a successful `UpdateWeights(arm = k, …)` leaves every arm other
than `k` with its weight vector exactly unchanged. -/
theorem C6_update_locality {b b' : ContextualBandit} {k : ℕ}
    {context : List ℚ} {reward : ℚ}
    (h : update_weights b k context reward = .ok b') :
    ∀ j, j ≠ k → b'.weights.getD j [] = b.weights.getD j [] :=
  (update_weights_frame h).2.2.2

/-- C6 witness: the spec's own scenario — updating arm 0 with context
`[1, 0]`, reward 0, learning rate 1/10 turns arm 0 into `[9/10, 0]`
while arm 1 stays `[0, 1]`. -/
theorem C6_witness :
    (⟨2, 2, 1 / 10, [[9 / 10, 0], [0, 1]]⟩ : ContextualBandit).weights.getD 1 [] =
      (⟨2, 2, 1 / 10, [[1, 0], [0, 1]]⟩ : ContextualBandit).weights.getD 1 [] := by
  have h : update_weights ⟨2, 2, 1 / 10, [[1, 0], [0, 1]]⟩ 0 [1, 0] 0 =
      .ok ⟨2, 2, 1 / 10, [[9 / 10, 0], [0, 1]]⟩ := by
    norm_num [update_weights, update_loop, update_step, compute_dot_product,
      List.range_succ]
  exact C6_update_locality h 1 (by decide)

/-- C7: for every nonempty record list, on a policy with at least one
arm, `offline_policy_evaluation` returns the sum of the logged rewards
of exactly those records whose logged arm equals the arm `choose_arm`
selects with the policy's current weights — `record_contrib` is the
logged reward on a match and exactly zero otherwise — divided by the
total number of records; the returned state equals the input state,
confirming no per-record weight update is used. -/
theorem C7_offline_replay (b : ContextualBandit)
    (data : List (List ℚ × ℕ × ℚ)) (harms : 1 ≤ b.num_arms)
    (hne : data ≠ []) :
    offline_policy_evaluation b data =
      .ok ((data.map (record_contrib b)).sum / (data.length : ℚ), b) :=
  offline_eval_eq b harms data hne

/-- C7 witness: two records, one matching (arm 0 wins on `[1, 0]`) and
one not. -/
theorem C7_witness :
    offline_policy_evaluation ⟨2, 2, 1 / 10, [[1, 0], [0, 1]]⟩
        [([1, 0], 0, 1), ([1, 0], 1, 1 / 2)] =
      .ok ((([([1, 0], 0, 1), ([1, 0], 1, 1 / 2)] :
            List (List ℚ × ℕ × ℚ)).map
              (record_contrib ⟨2, 2, 1 / 10, [[1, 0], [0, 1]]⟩)).sum /
          ((([([1, 0], 0, 1), ([1, 0], 1, 1 / 2)] :
            List (List ℚ × ℕ × ℚ)).length : ℕ) : ℚ),
        ⟨2, 2, 1 / 10, [[1, 0], [0, 1]]⟩) :=
  C7_offline_replay ⟨2, 2, 1 / 10, [[1, 0], [0, 1]]⟩
    [([1, 0], 0, 1), ([1, 0], 1, 1 / 2)] (by decide) (by simp)

/-- C9: `offline_policy_evaluation` never modifies the policy: whenever
it returns a value, the policy state afterwards — weight matrix,
`num_arms`, `num_features`, `learning_rate` — equals the state before
the call. -/
theorem C9_offline_no_mutation {b b' : ContextualBandit}
    {data : List (List ℚ × ℕ × ℚ)} {v : ℚ}
    (h : offline_policy_evaluation b data = .ok (v, b')) :
    b'.weights = b.weights ∧ b'.num_arms = b.num_arms ∧
    b'.num_features = b.num_features ∧ b'.learning_rate = b.learning_rate := by
  rw [offline_eval_state h]
  exact ⟨rfl, rfl, rfl, rfl⟩

/-- C9 witness: a concrete evaluation over one record returns the input
state unchanged. -/
theorem C9_witness :
    (⟨2, 2, 1 / 10, [[1, 0], [0, 1]]⟩ : ContextualBandit).weights =
      (⟨2, 2, 1 / 10, [[1, 0], [0, 1]]⟩ : ContextualBandit).weights ∧
    (2 : ℕ) = 2 ∧ (2 : ℕ) = 2 ∧ (1 / 10 : ℚ) = 1 / 10 := by
  have h : offline_policy_evaluation ⟨2, 2, 1 / 10, [[1, 0], [0, 1]]⟩
      [([1, 0], 0, 1)] = .ok (1, ⟨2, 2, 1 / 10, [[1, 0], [0, 1]]⟩) := by
    norm_num [offline_policy_evaluation, offline_step, choose_arm, arm_score,
      compute_dot_product, List.range_succ, list_max, idx_of, max_def,
      List.foldlM, except_bind_ok, pure, Except.pure]
  exact C9_offline_no_mutation h

/-- C8: for every valid construction (`num_arms ≥ 1`, `num_features ≥ 1`,
random source drawing from `[0, 1)`) and after ANY sequence of `Score`,
`SelectArm`, `UpdateWeights`, `Run` and `OfflineEvaluate` calls, every
arm's weight vector still has exactly `num_features` entries (and there
is still one vector per arm); immediately after construction every
entry lies in `[0, 1)`. -/
theorem C8_shape_invariant (num_arms num_features : ℕ) (learning_rate : ℚ)
    (rand : ℕ → ℚ) {b : ContextualBandit} (ops : List Op)
    (_hna : 1 ≤ num_arms) (_hnf : 1 ≤ num_features)
    (hrand : ∀ n, 0 ≤ rand n ∧ rand n < 1)
    (hinit : init num_arms num_features learning_rate rand = .ok b) :
    ((ops.foldl apply_op b).weights.length = num_arms ∧
      ∀ w ∈ (ops.foldl apply_op b).weights, w.length = num_features) ∧
    (∀ w ∈ b.weights, ∀ x ∈ w, 0 ≤ x ∧ x < 1) := by
  have hb := Except.ok.inj hinit
  have hshape := ops_shape (init_shape _ _ _ _ hinit) ops
  obtain ⟨f1, f2, -⟩ := ops_fields b ops
  refine ⟨⟨?_, ?_⟩, init_range _ _ _ _ hrand hinit⟩
  · rw [hshape.1, f1, ← hb]
  · intro w hw
    rw [hshape.2 w hw, f2, ← hb]

/-- C8 witness: one arm and one feature, then an update operation. -/
theorem C8_witness :
    ((([Op.update 0 [1] 1]).foldl apply_op ⟨1, 1, 1 / 10, [[1 / 2]]⟩).weights.length = 1 ∧
      ∀ w ∈ (([Op.update 0 [1] 1]).foldl apply_op ⟨1, 1, 1 / 10, [[1 / 2]]⟩).weights,
        w.length = 1) ∧
    (∀ w ∈ (⟨1, 1, 1 / 10, [[1 / 2]]⟩ : ContextualBandit).weights,
      ∀ x ∈ w, 0 ≤ x ∧ x < 1) := by
  have hinit : init 1 1 (1 / 10) (fun _ => 1 / 2) =
      .ok ⟨1, 1, 1 / 10, [[1 / 2]]⟩ := rfl
  exact C8_shape_invariant 1 1 (1 / 10) (fun _ => 1 / 2) [Op.update 0 [1] 1]
    (by decide) (by decide) (fun n => ⟨by norm_num, by norm_num⟩) hinit

/-- C10: for every context of length `num_features` with at most one
nonzero component, the update the code performs — recomputing the dot
product from the partially updated weights before each per-feature step
— yields exactly the same post-update weight vector as the documented
single-prediction rule that computes the dot product once before the
loop: every step with a zero context component is the identity, so the
recomputed predictions all equal the pre-update one. -/
theorem C10_one_hot_equivalence {b b' : ContextualBandit} {chosen_arm : ℕ}
    {context : List ℚ} {reward : ℚ}
    (_hlen : context.length = b.num_features)
    (hhot : ∀ i j, i ≠ j → context.getD i 0 = 0 ∨ context.getD j 0 = 0)
    (h : update_weights b chosen_arm context reward = .ok b') :
    update_loop b.learning_rate reward context
        (b.weights.getD chosen_arm []) b.num_features =
      single_prediction_update b.learning_rate reward context
        (b.weights.getD chosen_arm []) b.num_features ∧
    b'.weights = b.weights.set chosen_arm
      (single_prediction_update b.learning_rate reward context
        (b.weights.getD chosen_arm []) b.num_features) := by
  have hmain := update_loop_eq_single_prediction b.learning_rate reward context
    (b.weights.getD chosen_arm []) hhot b.num_features
  refine ⟨hmain, ?_⟩
  rw [update_weights_ok h]
  dsimp only
  rw [hmain]

/-- C10 witness: context `[2, 0]` (one nonzero component), weights
`[1, 1]`, learning rate 1, reward 0: both rules yield `[-3, 1]`. -/
theorem C10_witness :
    update_loop (1 : ℚ) 0 [2, 0] [1, 1] 2 =
      single_prediction_update (1 : ℚ) 0 [2, 0] [1, 1] 2 ∧
    (⟨1, 2, 1, [[-3, 1]]⟩ : ContextualBandit).weights =
      ([[1, 1]] : List (List ℚ)).set 0
        (single_prediction_update (1 : ℚ) 0 [2, 0] [1, 1] 2) := by
  have hz : ∀ i, i ≠ 0 → ([2, 0] : List ℚ).getD i 0 = 0 := by
    intro i hi
    rcases i with _ | _ | n
    · exact absurd rfl hi
    · rfl
    · rfl
  have hhot : ∀ i j, i ≠ j →
      ([2, 0] : List ℚ).getD i 0 = 0 ∨ ([2, 0] : List ℚ).getD j 0 = 0 := by
    intro i j hij
    by_cases hi : i = 0
    · exact Or.inr (hz j (by omega))
    · exact Or.inl (hz i hi)
  have h : update_weights ⟨1, 2, 1, [[1, 1]]⟩ 0 [2, 0] 0 =
      .ok ⟨1, 2, 1, [[-3, 1]]⟩ := by
    norm_num [update_weights, update_loop, update_step, compute_dot_product,
      List.range_succ]
  exact C10_one_hot_equivalence (by decide) hhot h
